import Mathlib

/-!
Verification of the MALD RAG subsystem specification against a shallow
embedding of the repository's Python sources.

Each section embeds one source module:
* `Markdown` — `src/mald/utils/markdown_parser.py`
* `Embeddings` — `src/mald/rag/embeddings.py`
* `Store` — `src/mald/rag/vector_store.py` (the pure-Python fallback path,
  which is the fully explicit code path of the dual numpy/list implementation)
* `Rag` — `src/mald/rag/rag_engine.py`

Python floats are modelled exactly: as rationals where the code performs only
field operations, and as real numbers where the code takes square roots
(`_normalize_vectors`).  Strings are modelled as `String`/`List Char`.
-/

namespace Markdown

/-- Python's `\s` character class `[ \t\n\r\f\v]`, as used by the title
pattern and by `str.strip()`. -/
def wsChar (c : Char) : Bool :=
  c == ' ' || c == '\t' || c == '\n' || c == '\r' || c == '\x0b' || c == '\x0c'

/-- Python `str.strip()` on a character list: drop leading and trailing
whitespace. -/
def pyStrip (l : List Char) : List Char :=
  ((l.dropWhile wsChar).reverse.dropWhile wsChar).reverse

/-- Split a character list at newline characters.  This reflects the line
structure that `re.MULTILINE` gives to `^...$` anchors. -/
def splitLines : List Char → List (List Char)
  | [] => [[]]
  | c :: rest =>
    if c = '\n' then [] :: splitLines rest
    else
      match splitLines rest with
      | [] => [[c]]
      | line :: out => (c :: line) :: out

/-- Whether one line on its own matches `^#\s+(.+)$`: a `#`, then at
least one whitespace character, then at least one further character.
Used to state the spec's per-line description of title extraction; the
code's actual `re.search` can also match across lines (see
`titleScanF`). -/
def isH1Line (l : List Char) : Bool :=
  match l with
  | '#' :: c :: rest => wsChar c && !rest.isEmpty
  | _ => false

/-- The characters after the next newline, if any: the next `^` anchor
position of `re.MULTILINE` scanning. -/
def afterNextNl : List Char → Option (List Char)
  | [] => none
  | c :: rest => if c = '\n' then some rest else afterNextNl rest

/-- Semantics of `re.search(r'^#\s+(.+)$', content, re.MULTILINE)` from
`_extract_title`, with the `.strip()` applied to the captured group.
Matches can only start at line starts (`^`).  At a line starting with
`#`, the greedy `\s+` consumes the maximal whitespace run `w` — which
may cross newlines, since `\s` matches `\n`.  If a character follows `w`
(necessarily neither whitespace nor `\n`), the group `(.+)` runs from it
to the end of its line and `$` holds there.  If `w` reaches the end of
input, the engine backtracks: the group must be at least one non-`\n`
character taken from the tail of `w`, which exists exactly when some
`w`-character after the first is not `\n`; the group is then whitespace
and strips to the empty title.  Otherwise no match starts at this line
and scanning resumes at the next line start.  The `fuel` argument only
bounds the recursion (each skip consumes at least one character). -/
def titleScanF : Nat → List Char → Option (List Char)
  | 0, _ => none
  | _, [] => none
  | fuel + 1, c :: rest =>
    if c = '#' then
      let w := rest.takeWhile wsChar
      let after := rest.drop w.length
      if w.isEmpty then
        match afterNextNl (c :: rest) with
        | some l2 => titleScanF fuel l2
        | none => none
      else
        match after with
        | _ :: _ => some (pyStrip (after.takeWhile (fun c2 => c2 != '\n')))
        | [] =>
          if (w.drop 1).any (fun c2 => c2 != '\n') then some []
          else
            match afterNextNl (c :: rest) with
            | some l2 => titleScanF fuel l2
            | none => none
    else
      match afterNextNl (c :: rest) with
      | some l2 => titleScanF fuel l2
      | none => none

/-- Method `MarkdownDocument._extract_title`: the stripped group of the first
multiline-pattern match, else the filename stem. -/
def extract_title (content : List Char) (stem : String) : String :=
  match titleScanF content.length content with
  | some t => String.mk t
  | none => stem

/-- The character class `[a-zA-Z0-9_-]` of the hashtag pattern. -/
def tagChar (c : Char) : Bool :=
  c.isAlpha || c.isDigit || c == '_' || c == '-'

/-- Semantics of `re.findall(r'#([a-zA-Z0-9_-]+)', content)` from `_extract_tags`:
left-to-right non-overlapping scan; at each `#` take the maximal nonempty
run of tag characters.  The `fuel` argument only bounds the recursion
(every step consumes at least one character, so `l.length` fuel is
enough); it keeps the scan structurally recursive. -/
def findTagsF : Nat → List Char → List String
  | 0, _ => []
  | _, [] => []
  | fuel + 1, '#' :: rest =>
    let run := rest.takeWhile tagChar
    if run.isEmpty then findTagsF fuel rest
    else String.mk run :: findTagsF fuel (rest.drop run.length)
  | fuel + 1, _ :: rest => findTagsF fuel rest

/-- Method `MarkdownDocument._extract_tags` (the Python code deduplicates via
`set`; membership in this list corresponds to membership in that set). -/
def findTags (l : List Char) : List String :=
  findTagsF l.length l

/-- Semantics of `re.findall(r'\[\[([^\]]+)\]\]', content)` from `_extract_links`:
on `[[` take the maximal nonempty run of non-`]` characters; the match
succeeds when it is followed by `]]`, otherwise scanning resumes one
character further right. -/
def findWikiF : Nat → List Char → List (List Char)
  | 0, _ => []
  | _, [] => []
  | fuel + 1, '[' :: '[' :: rest =>
    let run := rest.takeWhile (fun c => c != ']')
    let after := rest.drop run.length
    if !run.isEmpty && after.take 2 == [']', ']'] then
      run :: findWikiF fuel (after.drop 2)
    else
      findWikiF fuel ('[' :: rest)
  | fuel + 1, _ :: rest => findWikiF fuel rest

/-- The wikilink scan over a whole document (`l.length` fuel suffices
since every step of `findWikiF` consumes at least one character). -/
def findWiki (l : List Char) : List (List Char) :=
  findWikiF l.length l

/-- Per-wikilink processing in `_extract_links`:
`link.split('|')[0].strip()`. -/
def wikiTarget (t : List Char) : String :=
  String.mk (pyStrip (t.takeWhile (fun c => c != '|')))

/-- Semantics of `re.findall(r'\[([^\]]+)\]\(([^)]+)\)', content)` from
`_extract_links`: a `[`, a nonempty run of non-`]`, then `](`, a nonempty
run of non-`)`, then `)`. -/
def findMdLinksF : Nat → List Char → List (String × String)
  | 0, _ => []
  | _, [] => []
  | fuel + 1, '[' :: rest =>
    let txt := rest.takeWhile (fun c => c != ']')
    let after := rest.drop txt.length
    if !txt.isEmpty && after.take 2 == [']', '('] then
      let url := (after.drop 2).takeWhile (fun c => c != ')')
      let after2 := (after.drop 2).drop url.length
      if !url.isEmpty && after2.take 1 == [')'] then
        (String.mk txt, String.mk url) :: findMdLinksF fuel (after2.drop 1)
      else findMdLinksF fuel rest
    else findMdLinksF fuel rest
  | fuel + 1, _ :: rest => findMdLinksF fuel rest

/-- The markdown-hyperlink scan over a whole document. -/
def findMdLinks (l : List Char) : List (String × String) :=
  findMdLinksF l.length l

/-- The keep condition of `_extract_links` for markdown hyperlinks:
`url.endswith('.md') and not url.startswith('http')`. -/
def mdUrlKeep (url : String) : Bool :=
  url.endsWith ".md" && !url.startsWith "http"

/-- Method `MarkdownDocument._extract_links`: wikilink targets together with kept
markdown-hyperlink urls.  The Python code stores them in a `set`;
membership in this list corresponds to membership in that set. -/
def extract_links (content : List Char) : List String :=
  (findWiki content).map wikiTarget ++
    (findMdLinks content).filterMap (fun p => if mdUrlKeep p.2 then some p.2 else none)

/-- A fenced code block as recorded by `_extract_code_blocks` (`start`
and `stop` are the match offsets; the source calls the latter `end`,
a reserved word here). -/
structure CodeBlock where
  language : String
  code : String
  start : Nat
  stop : Nat
deriving Repr, DecidableEq

/-- Python `\w` on ASCII input: `[a-zA-Z0-9_]`. -/
def wordChar (c : Char) : Bool :=
  c.isAlphanum || c == '_'

/-- Index of the first occurrence of a closing fence sequence
(newline followed by three backticks), the lazy target of `(.*?)\n` in the
code-block pattern. -/
def findFenceClose : List Char → Option Nat
  | '\n' :: '\x60' :: '\x60' :: '\x60' :: _ => some 0
  | _ :: rest => (findFenceClose rest).map (· + 1)
  | [] => none

/-- Semantics of `re.finditer` with the code-block pattern of `_extract_code_blocks`:
an opening triple-backtick fence, an optional `\w+` language token, a
newline, a lazy body, and a closing fence.  The language defaults to
`text`; the body is stripped, and the character span of the whole match
is recorded. -/
def findCodeBlocksF : Nat → Nat → List Char → List CodeBlock
  | 0, _, _ => []
  | _, _, [] => []
  | fuel + 1, i, '\x60' :: '\x60' :: '\x60' :: rest =>
    let lang := rest.takeWhile wordChar
    let rest2 := rest.drop lang.length
    if rest2.head? == some '\n' then
      match findFenceClose rest2.tail with
      | some j =>
        { language := if lang.isEmpty then "text" else String.mk lang
          code := String.mk (pyStrip (rest2.tail.take j))
          start := i
          stop := i + 3 + lang.length + 1 + j + 4 } ::
          findCodeBlocksF fuel (i + 3 + lang.length + 1 + j + 4) (rest2.tail.drop (j + 4))
      | none => findCodeBlocksF fuel (i + 1) ('\x60' :: '\x60' :: rest)
    else findCodeBlocksF fuel (i + 1) ('\x60' :: '\x60' :: rest)
  | fuel + 1, i, _ :: rest => findCodeBlocksF fuel (i + 1) rest

/-- The code-block scan over a whole document, starting at offset 0. -/
def findCodeBlocks (i : Nat) (l : List Char) : List CodeBlock :=
  findCodeBlocksF l.length i l

/-- The parsed attributes of a `MarkdownDocument` used by the claims
(frontmatter metadata, which depends on the external yaml library, is not
modelled). -/
structure MarkdownDoc where
  title : String
  links : List String
  tags : List String
  code_blocks : List CodeBlock
deriving Repr, DecidableEq

/-- Construction of a `MarkdownDocument` from file content and the
filename stem. -/
def parseMarkdown (content : String) (stem : String) : MarkdownDoc :=
  { title := extract_title content.data stem
    links := extract_links content.data
    tags := findTags content.data
    code_blocks := findCodeBlocks 0 content.data }

/-- Link-target normalization in `find_orphaned_files`:
`link if link.endswith('.md') else f"{link}.md"` (written here without an
f-string). -/
def normLink (l : String) : String :=
  if l.endsWith ".md" then l else l ++ ".md"

/-- The `linked_files` set of `find_orphaned_files`: every link of every
document, normalized.  Documents are given as the result of
`parse_knowledge_base`: relative path paired with the document's links. -/
def linkedFiles (docs : List (String × List String)) : List String :=
  (docs.map (fun d => d.2.map normLink)).flatten

/-- Function `find_orphaned_files`: documents (identified by relative path) whose
path is not a normalized link target and which are not the root
`index.md`. -/
def find_orphaned_files (docs : List (String × List String)) : List String :=
  docs.filterMap (fun d =>
    if d.1 ∉ linkedFiles docs ∧ d.1 ≠ "index.md" then some d.1 else none)

end Markdown

namespace Embeddings

/-- Value of one hexadecimal digit, the semantics of Python `int(_, 16)`
on digit characters: ASCII ranges `0`-`9` (48-57), `a`-`f` (97-102) and
`A`-`F` (65-70).  `hashlib.md5(...).hexdigest()` only produces `0`-`9`
and `a`-`f`. -/
def hexVal (c : Char) : Nat :=
  if 48 ≤ c.toNat ∧ c.toNat ≤ 57 then c.toNat - 48
  else if 97 ≤ c.toNat ∧ c.toNat ≤ 102 then c.toNat - 87
  else if 65 ≤ c.toNat ∧ c.toNat ≤ 70 then c.toNat - 55
  else 0

/-- Value `int(hex_dig[j:j+2], 16)` for the two-character slices
`j in range(0, len(hex_dig), 2)` of the digest (a final odd slice would
have a single digit). -/
def pairVals : List Char → List Nat
  | c1 :: c2 :: rest => (16 * hexVal c1 + hexVal c2) :: pairVals rest
  | [c] => [hexVal c]
  | [] => []

/-- The byte-to-float conversion of `_simple_hash_embed`:
`val / 255.0 - 0.5`. -/
def byteToFloat (n : Nat) : ℚ :=
  (n : ℚ) / 255 - 1 / 2

/-- The hash input `f"{text}_{i}"` for group `i` (written without an
f-string). -/
def hashInput (text : String) (i : Nat) : String :=
  text ++ "_" ++ toString i

/-- Method `EmbeddingEngine._simple_hash_embed`, parameterized by the digest
function `md5hex` standing for `hashlib.md5(_).hexdigest()` (the digest
itself is Python standard-library code, not repository code, so it is
abstracted; where a property depends on it, the 32-character digest
length is assumed).  For each group `i in range(dim // 32)` the digest
bytes are converted to floats and appended until `dim` values are
collected (the inner `break` is the `take`), then the vector is
zero-padded to `dim` and truncated to `dim`. -/
def simple_hash_embed (md5hex : String → String) (text : String) (dim : Nat := 384) :
    List ℚ :=
  let emb := (List.range (dim / 32)).foldl
    (fun emb i =>
      emb ++ ((pairVals (md5hex (hashInput text i)).data).map byteToFloat).take
        (dim - emb.length))
    []
  (emb ++ List.replicate (dim - emb.length) 0).take dim

end Embeddings

namespace Rag

/-- The Indexed-File Record `self.indexed_files`: a mapping from relative
path to last-known modification time (a Python float, modelled exactly as
a rational).  Modelled as an association list with the insertion-order
semantics of a Python `dict`. -/
abbrev Record := List (String × ℚ)

/-- Python `rel_path in self.indexed_files` / `self.indexed_files[rel_path]`:
lookup in the record. -/
def recLookup : Record → String → Option ℚ
  | [], _ => none
  | e :: t, p => if e.1 = p then some e.2 else recLookup t p

/-- Python `self.indexed_files[rel_path] = file_mtime`: dict assignment
replaces the value at an existing key in place, otherwise appends. -/
def upsert (r : Record) (p : String) (m : ℚ) : Record :=
  match r with
  | [] => [(p, m)]
  | e :: t => if e.1 = p then (p, m) :: t else e :: upsert t p m

/-- The per-document loop of `index_knowledge_base`: for each parsed
document (given as relative path and current on-disk modification time,
in iteration order), the document is collected for re-embedding exactly
when it is absent from the record or the recorded time is smaller than
the current one, and the record is updated to the current time. -/
def indexLoop : List (String × ℚ) → List String → Record → List String × Record
  | [], acc, r => (acc, r)
  | (p, m) :: fs, acc, r =>
    match recLookup r p with
    | none => indexLoop fs (acc ++ [p]) (upsert r p m)
    | some old =>
      if old < m then indexLoop fs (acc ++ [p]) (upsert r p m)
      else indexLoop fs acc r

/-- Method `RAGEngine.index_knowledge_base` restricted to the state the claim is
about: the knowledge base is a snapshot of (relative path, mtime) pairs;
`force_reindex=True` clears the record (and the vector store); the return
value is `len(new_documents)` together with the updated record.  The
embedding/vector-store writes do not influence the count or the record. -/
def index_knowledge_base (files : List (String × ℚ)) (r : Record)
    (force_reindex : Bool) : Nat × Record :=
  let r0 := if force_reindex then [] else r
  ((indexLoop files [] r0).1.length, (indexLoop files [] r0).2)

end Rag

namespace Store

/-- Python `sum(x * x for x in vec)` from `_normalize_vectors`. -/
def sumSq : List ℝ → ℝ
  | [] => 0
  | x :: t => x * x + sumSq t

/-- Method `VectorStore._normalize_vectors` on one vector (pure-Python path):
`norm = sum(x * x for x in vec) ** 0.5`, `if norm == 0: norm = 1`,
`[x / norm for x in vec]`.  Exponent `0.5` on a nonnegative float is the
square root. -/
noncomputable def normalizeVec (v : List ℝ) : List ℝ :=
  let norm := Real.sqrt (sumSq v)
  let norm1 := if norm = 0 then 1 else norm
  v.map (fun x => x / norm1)

/-- Method `_normalize_vectors` on a list of vectors. -/
noncomputable def normalizeVectors (vs : List (List ℝ)) : List (List ℝ) :=
  vs.map normalizeVec

/-- The in-memory state of a `VectorStore` (pure-Python fallback path:
`self.vectors` is a list of lists, `self.documents` a dict from integer
id to metadata, modelled as an association list with dict-insertion
order). -/
structure VectorStore (α : Type) where
  dimension : Nat
  documents : List (Nat × α)
  next_id : Nat
  vectors : List (List ℝ)

/-- A fresh store over an index directory with no persisted state:
`documents = {}`, `next_id = 0`, `vectors = []`. -/
def emptyStore (α : Type) (dim : Nat) : VectorStore α :=
  ⟨dim, [], 0, []⟩

/-- Python `idx in self.documents` / `self.documents[idx]`. -/
def docLookup {α : Type} : List (Nat × α) → Nat → Option α
  | [], _ => none
  | e :: t, i => if e.1 = i then some e.2 else docLookup t i

/-- Python dict assignment `self.documents[doc_id] = doc`. -/
def docUpsert {α : Type} : List (Nat × α) → Nat → α → List (Nat × α)
  | [], i, d => [(i, d)]
  | e :: t, i, d => if e.1 = i then (i, d) :: t else e :: docUpsert t i d

/-- The metadata loop of `add_documents`:
`for i, doc in enumerate(documents): self.documents[start_id + i] = doc`. -/
def addMeta {α : Type} : List (Nat × α) → Nat → List α → List (Nat × α)
  | dd, _, [] => dd
  | dd, b, d :: ds => addMeta (docUpsert dd b d) (b + 1) ds

/-- The message of the `ValueError` raised on a dimension mismatch. -/
def errMsg (got expected : Nat) : String :=
  "Embedding dimension " ++ toString got ++ " doesn't match expected " ++ toString expected

/-- The state change of `add_documents` once validation has passed:
normalize, extend `self.vectors`, register metadata ids starting at
`start_id = self.next_id`, and advance `next_id` by `len(documents)`. -/
noncomputable def addOk {α : Type} (s : VectorStore α) (documents : List α)
    (embeddings : List (List ℝ)) : VectorStore α :=
  { dimension := s.dimension
    vectors := s.vectors ++ normalizeVectors embeddings
    documents := addMeta s.documents s.next_id documents
    next_id := s.next_id + documents.length }

/-- Method `VectorStore.add_documents` (pure-Python path).  The dimension check
is `if len(embeddings[0]) != self.dimension` guarded by
`isinstance(embeddings, list) and embeddings`, so only the first
embedding of a non-empty batch is validated; the `raise` happens before
any state change. -/
noncomputable def add_documents {α : Type} (s : VectorStore α) (documents : List α)
    (embeddings : List (List ℝ)) : Except String (VectorStore α) :=
  match embeddings with
  | e :: _ =>
    if e.length ≠ s.dimension then
      Except.error (errMsg e.length s.dimension)
    else Except.ok (addOk s documents embeddings)
  | [] => Except.ok (addOk s documents embeddings)

/-- A call of `add_documents` as a state transformer: a raised
`ValueError` leaves the store unchanged. -/
noncomputable def applyAdd {α : Type} (s : VectorStore α) (documents : List α)
    (embeddings : List (List ℝ)) : VectorStore α :=
  match add_documents s documents embeddings with
  | Except.ok s' => s'
  | Except.error _ => s

/-- An arbitrary sequence of `add_documents` calls. -/
noncomputable def runAdds {α : Type} (s : VectorStore α) :
    List (List α × List (List ℝ)) → VectorStore α
  | [] => s
  | op :: ops => runAdds (applyAdd s op.1 op.2) ops

/-- The normalization invariant of §3: every stored vector has unit L2
norm, or is the zero vector. -/
def StoreInv {α : Type} (s : VectorStore α) : Prop :=
  ∀ v ∈ s.vectors, sumSq v = 1 ∨ ∀ x ∈ v, x = 0

/-- Expression `sum(a * b for a, b in zip(doc_vec, query_vec))` from `search`. -/
noncomputable def dot (v w : List ℝ) : ℝ :=
  ((v.zip w).map (fun p => p.1 * p.2)).sum

/-- Statement `similarities.sort(key=lambda x: x[1], reverse=True)`: a stable sort
descending by similarity. -/
noncomputable def sortDesc (l : List (Nat × ℝ)) : List (Nat × ℝ) :=
  l.insertionSort (fun a b => b.2 ≤ a.2)

/-- Method `VectorStore.search` (pure-Python path): empty-store early return,
query normalization, dot products against every stored vector by
enumeration index, stable descending sort, truncation to `k`, and lookup
of each index in the documents dict. -/
noncomputable def search {α : Type} (s : VectorStore α) (query : List ℝ) (k : Nat) :
    List (α × ℝ) :=
  if s.documents.length = 0 then []
  else
    let nq := (normalizeVectors [query]).headI
    let sims := s.vectors.enum.map (fun p => (p.1, dot p.2 nq))
    ((sortDesc sims).take k).filterMap
      (fun p => (docLookup s.documents p.1).map (fun d => (d, p.2)))

/-- Well-formedness of a store state as produced by proper use of the
append-only interface: document ids are exactly the vector positions
`0, …, len(vectors) - 1` in order, and `next_id` is the vector count. -/
def Wf {α : Type} (s : VectorStore α) : Prop :=
  s.documents.map Prod.fst = List.range s.vectors.length ∧
    s.next_id = s.vectors.length

/-- The on-disk artifacts written by `save_index`: `vectors.json`,
`documents.json` and `metadata.json` (dimension, next id, document
count). -/
structure DiskIndex (α : Type) where
  vectors : List (List ℝ)
  documents : List (Nat × α)
  dimension : Nat
  next_id : Nat
  num_documents : Nat

/-- Method `VectorStore.save_index` (pure-Python path), as the data it
persists. -/
def save_index {α : Type} (s : VectorStore α) : DiskIndex α :=
  ⟨s.vectors, s.documents, s.dimension, s.next_id, s.documents.length⟩

/-- Construction of a fresh `VectorStore` over an index directory:
start empty with the requested dimension, then `_load_index` — a missing
metadata file means no prior index, otherwise `next_id`, `dimension`,
`documents` (with keys converted back to integers) and `vectors` are
restored. -/
def loadStore {α : Type} (disk : Option (DiskIndex α)) (dim : Nat) : VectorStore α :=
  match disk with
  | none => emptyStore α dim
  | some d =>
    { dimension := d.dimension
      documents := d.documents
      next_id := d.next_id
      vectors := d.vectors }

end Store

namespace Engine

open Embeddings

/-- The modelled values of `self.model`: the string `"fallback"` (which
also covers `None`, treated identically by `embed`) or the marker string
`"ollama"`.  A loaded sentence-transformers model is an external library
object outside the model; in an environment without that library its
loader falls back. -/
inductive ModelKind
  | fallbackModel
  | ollamaModel
deriving DecidableEq, Repr

/-- The state of an `EmbeddingEngine` after construction: the active
model and the configured `self.backend` string (which `_load_model`
never changes, even when falling back). -/
structure EngineState where
  model : ModelKind
  backend : String
deriving DecidableEq, Repr

/-- Per-text outcome of `requests.post` to the Ollama embeddings
endpoint, an oracle for the external HTTP world: a raised exception
(connection error, timeout), a non-200 status, or a 200 response whose
parsed `embedding` field is the given list (the code applies no check to
it; a response without the field yields `[]`). -/
inductive OllamaOutcome
  | exn
  | badStatus
  | ok (embedding : List ℚ)

/-- Construction `EmbeddingEngine.__init__` followed by `_load_model` for the
modelled backends: `backend="ollama"` probes the local daemon and falls
back to the hash model when the probe fails or errors, keeping
`self.backend = "ollama"`; any other backend string yields the fallback
model. -/
def mkEngine (backend : String) (probeOk : Bool) : EngineState :=
  if backend = "ollama" then
    if probeOk then ⟨ModelKind.ollamaModel, backend⟩
    else ⟨ModelKind.fallbackModel, backend⟩
  else ⟨ModelKind.fallbackModel, backend⟩

/-- Method `EmbeddingEngine._fallback_embed`. -/
def fallback_embed (md5hex : String → String) (texts : List String) : List (List ℚ) :=
  texts.map (fun t => simple_hash_embed md5hex t 384)

/-- The request loop of `_ollama_embed`: a 200 response appends the
served embedding unchecked, a non-200 response appends the per-text hash
embedding, and a raised exception aborts the whole loop (the enclosing
`try` discards all partial results). -/
def ollamaLoop (md5hex : String → String) (world : String → OllamaOutcome) :
    List String → Except Unit (List (List ℚ))
  | [] => Except.ok []
  | t :: ts =>
    match world t with
    | OllamaOutcome.exn => Except.error ()
    | OllamaOutcome.badStatus =>
      (ollamaLoop md5hex world ts).map (fun l => simple_hash_embed md5hex t 384 :: l)
    | OllamaOutcome.ok e => (ollamaLoop md5hex world ts).map (fun l => e :: l)

/-- Method `EmbeddingEngine._ollama_embed`: when the loop raises, the whole
batch degrades to `_fallback_embed`. -/
def ollama_embed (md5hex : String → String) (world : String → OllamaOutcome)
    (texts : List String) : List (List ℚ) :=
  match ollamaLoop md5hex world texts with
  | Except.ok l => l
  | Except.error _ => fallback_embed md5hex texts

/-- Method `EmbeddingEngine.embed` on a list input (a single string is wrapped
into a one-element list first) for the modelled states.  The result type
carries no exception: every failure is caught and degrades to the hash
fallback.  For `model = "fallback"` (or `None`) the early return applies.
For the string value `"ollama"`, `hasattr(self.model, 'encode')` is true
— Python strings have an `encode` method — so the sentence-transformers
branch runs `self.model.encode(texts, ...)`, which raises `TypeError`
(wrong arguments for `str.encode`); the enclosing `except` then returns
`_fallback_embed(texts)`.  The `elif self.model == "ollama"` branch,
and with it `_ollama_embed`, is unreachable for the modelled states, and
the `world` oracle does not influence the result. -/
def embed (md5hex : String → String) (_world : String → OllamaOutcome)
    (st : EngineState) (texts : List String) : List (List ℚ) :=
  match st.model with
  | ModelKind.fallbackModel => fallback_embed md5hex texts
  | ModelKind.ollamaModel => fallback_embed md5hex texts

/-- Method `EmbeddingEngine.get_dimension`: the modelled model values carry no
`get_sentence_embedding_dimension` attribute, so the result depends only
on the configured backend string: the constant 768 for `"ollama"`,
otherwise the fallback constant 384. -/
def get_dimension (st : EngineState) : Nat :=
  if st.backend = "ollama" then 768 else 384

end Engine

/-- A concrete 32-character hexadecimal digest function used to
instantiate the abstracted `md5hex` parameter (the value is the actual
md5 digest of the empty string). -/
def constDigest : String → String :=
  fun _ => "d41d8cd98f00b204e9800998ecf8427e"

/-- An external world in which every embedding request raises a
connection error. -/
def worldExn : String → Engine.OllamaOutcome :=
  fun _ => Engine.OllamaOutcome.exn

/-- The document of the spec's parsing test vector. -/
def sampleDoc : String :=
  "# Hello\n\nSee [[World|w]] and #tag1 #tag2.\n```python\nprint(1)\n```"

/-- The orphan-detection test vector: the root index A links to B,
nothing links to C. -/
def orphanDocs : List (String × List String) :=
  [("index.md", ["B"]), ("B.md", []), ("C.md", [])]

/-- A concrete well-formed one-document store of dimension 2. -/
noncomputable def store1 : Store.VectorStore String :=
  ⟨2, [(0, "note")], 1, [[1, 0]]⟩

/-- A concrete two-file knowledge-base snapshot. -/
def filesW : List (String × ℚ) :=
  [("notes/a.md", 1), ("notes/b.md", 2)]

namespace Embeddings

theorem hexVal_le (c : Char) : hexVal c ≤ 15 := by
  unfold hexVal
  split
  · omega
  · split
    · omega
    · split
      · omega
      · omega

theorem pairVals_le : ∀ l, ∀ n ∈ pairVals l, n ≤ 255 := by
  intro l
  induction l using pairVals.induct with
  | case1 c1 c2 rest ih =>
    intro n hn
    simp only [pairVals, List.mem_cons] at hn
    rcases hn with h | h
    · have h1 := hexVal_le c1
      have h2 := hexVal_le c2
      omega
    · exact ih n h
  | case2 c =>
    intro n hn
    simp only [pairVals, List.mem_singleton] at hn
    have := hexVal_le c
    omega
  | case3 =>
    intro n hn
    simp [pairVals] at hn

theorem byteToFloat_bounds {n : Nat} (h : n ≤ 255) :
    -(1 / 2 : ℚ) ≤ byteToFloat n ∧ byteToFloat n ≤ 1 / 2 := by
  unfold byteToFloat
  constructor
  · have h0 : (0 : ℚ) ≤ (n : ℚ) / 255 := by positivity
    linarith
  · have h1 : (n : ℚ) ≤ 255 := by exact_mod_cast h
    have h2 : (n : ℚ) / 255 ≤ 1 := by
      rw [div_le_one (by norm_num)]
      exact h1
    linarith

theorem pairVals_length : ∀ l : List Char, (pairVals l).length = (l.length + 1) / 2 := by
  intro l
  induction l using pairVals.induct with
  | case1 c1 c2 rest ih => simp [pairVals, ih]; omega
  | case2 c => simp [pairVals]
  | case3 => simp [pairVals]

theorem simple_hash_embed_length (md5hex : String → String) (text : String) (dim : Nat) :
    (simple_hash_embed md5hex text dim).length = dim := by
  unfold simple_hash_embed
  simp [List.length_take, List.length_append, List.length_replicate]
  omega

/-- Every value of the embedding-group fold stays within the float bounds
provided the accumulator does. -/
theorem foldl_emb_bounds (md5hex : String → String) (text : String) (dim : Nat) :
    ∀ (is : List Nat) (acc : List ℚ),
      (∀ x ∈ acc, -(1 / 2 : ℚ) ≤ x ∧ x ≤ 1 / 2) →
      ∀ x ∈ is.foldl
        (fun emb i =>
          emb ++ ((pairVals (md5hex (hashInput text i)).data).map byteToFloat).take
            (dim - emb.length)) acc,
        -(1 / 2 : ℚ) ≤ x ∧ x ≤ 1 / 2 := by
  intro is
  induction is with
  | nil => intro acc hacc x hx; exact hacc x hx
  | cons i is ih =>
    intro acc hacc x hx
    refine ih _ ?_ x hx
    intro y hy
    rcases List.mem_append.1 hy with h | h
    · exact hacc y h
    · have h' := List.mem_of_mem_take h
      rcases List.mem_map.1 h' with ⟨n, hn, rfl⟩
      exact byteToFloat_bounds (pairVals_le _ n hn)

/-- With 32-character digests, each processed group contributes exactly
16 values while fewer than `dim` have been collected. -/
theorem foldl_emb_length (md5hex : String → String) (text : String) (dim : Nat)
    (hlen : ∀ s, (md5hex s).length = 32) :
    ∀ (is : List Nat) (acc : List ℚ), acc.length + 16 * is.length ≤ dim →
      (is.foldl
        (fun emb i =>
          emb ++ ((pairVals (md5hex (hashInput text i)).data).map byteToFloat).take
            (dim - emb.length)) acc).length = acc.length + 16 * is.length := by
  intro is
  induction is with
  | nil => intro acc _; simp
  | cons i is ih =>
    intro acc hle
    simp only [List.foldl_cons]
    have hplen : ((pairVals (md5hex (hashInput text i)).data).map byteToFloat).length = 16 := by
      have hd : (md5hex (hashInput text i)).data.length = 32 := hlen _
      simp [pairVals_length, hd]
    have htake :
        ((pairVals (md5hex (hashInput text i)).data).map byteToFloat).take
          (dim - acc.length) =
        (pairVals (md5hex (hashInput text i)).data).map byteToFloat := by
      apply List.take_of_length_le
      simp only [List.length_cons] at hle
      omega
    rw [htake]
    have := ih (acc ++ (pairVals (md5hex (hashInput text i)).data).map byteToFloat)
      (by simp only [List.length_append, hplen, List.length_cons] at hle ⊢; omega)
    simp only [List.length_append, hplen, List.length_cons] at this ⊢
    omega

theorem simple_hash_embed_bounds (md5hex : String → String) (text : String) (dim : Nat) :
    ∀ x ∈ simple_hash_embed md5hex text dim, -(1 / 2 : ℚ) ≤ x ∧ x ≤ 1 / 2 := by
  intro x hx
  unfold simple_hash_embed at hx
  dsimp only at hx
  have hx' := List.mem_of_mem_take hx
  rcases List.mem_append.1 hx' with h | h
  · exact foldl_emb_bounds md5hex text dim _ [] (by simp) x h
  · have hz := List.eq_of_mem_replicate h
    subst hz
    norm_num

theorem simple_hash_embed_drop (md5hex : String → String) (text : String)
    (h : ∀ s, (md5hex s).length = 32) :
    (simple_hash_embed md5hex text 384).drop 192 = List.replicate 192 (0 : ℚ) := by
  have hemb :
      ((List.range (384 / 32)).foldl
        (fun emb i =>
          emb ++ ((pairVals (md5hex (hashInput text i)).data).map byteToFloat).take
            (384 - emb.length)) ([] : List ℚ)).length = 192 := by
    have := foldl_emb_length md5hex text 384 h (List.range (384 / 32)) [] (by simp)
    simpa using this
  unfold simple_hash_embed
  dsimp only
  generalize hE : (List.range (384 / 32)).foldl
      (fun emb i =>
        emb ++ ((pairVals (md5hex (hashInput text i)).data).map byteToFloat).take
          (384 - emb.length)) ([] : List ℚ) = emb
  rw [hE] at hemb
  have h384 : (emb ++ List.replicate (384 - emb.length) (0 : ℚ)).length = 384 := by
    rw [List.length_append, List.length_replicate, hemb]
  rw [List.take_of_length_le (le_of_eq h384)]
  rw [hemb, show (384 : Nat) - 192 = 192 from by norm_num]
  exact List.drop_left' hemb

end Embeddings

namespace Rag

theorem recLookup_upsert_self (r : Record) (p : String) (m : ℚ) :
    recLookup (upsert r p m) p = some m := by
  induction r with
  | nil => simp [upsert, recLookup]
  | cons e t ih =>
    by_cases h : e.1 = p
    · simp [upsert, h, recLookup]
    · simp [upsert, h, recLookup, ih]

theorem recLookup_upsert_ne (r : Record) {p q : String} (m : ℚ) (h : q ≠ p) :
    recLookup (upsert r q m) p = recLookup r p := by
  induction r with
  | nil => simp [upsert, recLookup, h]
  | cons e t ih =>
    by_cases he : e.1 = q
    · simp [upsert, he, recLookup, h]
    · simp [upsert, he, recLookup, ih]

/-- Paths not mentioned in the remaining files keep their record entry
through the rest of the loop. -/
theorem indexLoop_lookup_not_mem :
    ∀ (fs : List (String × ℚ)) (acc : List String) (r : Record) (p : String),
      p ∉ fs.map Prod.fst →
      recLookup (indexLoop fs acc r).2 p = recLookup r p := by
  intro fs
  induction fs with
  | nil => intro acc r p _; rfl
  | cons f fs ih =>
    intro acc r p hp
    obtain ⟨q, m⟩ := f
    simp only [List.map_cons, List.mem_cons, not_or] at hp
    obtain ⟨hqp, hp'⟩ := hp
    have hne : q ≠ p := fun h => hqp h.symm
    cases hl : recLookup r q with
    | none =>
      simp only [indexLoop, hl]
      rw [ih _ _ p hp', recLookup_upsert_ne _ _ hne]
    | some old =>
      by_cases hlt : old < m
      · simp only [indexLoop, hl, if_pos hlt]
        rw [ih _ _ p hp', recLookup_upsert_ne _ _ hne]
      · simp only [indexLoop, hl, if_neg hlt]
        exact ih _ _ p hp'

/-- Paths not mentioned in the remaining files are not added to the
collected list. -/
theorem indexLoop_mem_acc_not_mem :
    ∀ (fs : List (String × ℚ)) (acc : List String) (r : Record) (p : String),
      p ∉ fs.map Prod.fst →
      (p ∈ (indexLoop fs acc r).1 ↔ p ∈ acc) := by
  intro fs
  induction fs with
  | nil => intro acc r p _; rfl
  | cons f fs ih =>
    intro acc r p hp
    obtain ⟨q, m⟩ := f
    simp only [List.map_cons, List.mem_cons, not_or] at hp
    obtain ⟨hqp, hp'⟩ := hp
    cases hl : recLookup r q with
    | none =>
      simp only [indexLoop, hl]
      rw [ih _ _ p hp']
      simp [hqp]
    | some old =>
      by_cases hlt : old < m
      · simp only [indexLoop, hl, if_pos hlt]
        rw [ih _ _ p hp']
        simp [hqp]
      · simp only [indexLoop, hl, if_neg hlt]
        exact ih _ _ p hp'

/-- After one pass, every file's record entry is at least its current
modification time (equal when the file was re-embedded, the old larger
value when it was skipped). -/
theorem indexLoop_post :
    ∀ (fs : List (String × ℚ)) (acc : List String) (r : Record),
      (fs.map Prod.fst).Nodup →
      ∀ p m, (p, m) ∈ fs →
        ∃ v, recLookup (indexLoop fs acc r).2 p = some v ∧ ¬ v < m := by
  intro fs
  induction fs with
  | nil => intro acc r _ p m hm; simp at hm
  | cons f fs ih =>
    intro acc r hnd p m hm
    obtain ⟨q, mq⟩ := f
    simp only [List.map_cons, List.nodup_cons] at hnd
    obtain ⟨hqnotin, hnd'⟩ := hnd
    rcases List.mem_cons.1 hm with heq | htail
    · injection heq with h1 h2
      subst h1
      subst h2
      cases hl : recLookup r p with
      | none =>
        refine ⟨m, ?_, lt_irrefl m⟩
        simp only [indexLoop, hl]
        rw [indexLoop_lookup_not_mem _ _ _ _ hqnotin, recLookup_upsert_self]
      | some old =>
        by_cases hlt : old < m
        · refine ⟨m, ?_, lt_irrefl m⟩
          simp only [indexLoop, hl, if_pos hlt]
          rw [indexLoop_lookup_not_mem _ _ _ _ hqnotin, recLookup_upsert_self]
        · refine ⟨old, ?_, hlt⟩
          simp only [indexLoop, hl, if_neg hlt]
          rw [indexLoop_lookup_not_mem _ _ _ _ hqnotin, hl]
    · cases hl : recLookup r q with
      | none =>
        simp only [indexLoop, hl]
        exact ih _ _ hnd' p m htail
      | some old =>
        by_cases hlt : old < mq
        · simp only [indexLoop, hl, if_pos hlt]
          exact ih _ _ hnd' p m htail
        · simp only [indexLoop, hl, if_neg hlt]
          exact ih _ _ hnd' p m htail

/-- If every file already has a record entry at least as new as its
mtime, the loop collects nothing. -/
theorem indexLoop_no_new :
    ∀ (fs : List (String × ℚ)) (acc : List String) (r : Record),
      (∀ p m, (p, m) ∈ fs → ∃ v, recLookup r p = some v ∧ ¬ v < m) →
      (indexLoop fs acc r).1 = acc := by
  intro fs
  induction fs with
  | nil => intro acc r _; rfl
  | cons f fs ih =>
    intro acc r hup
    obtain ⟨q, m⟩ := f
    obtain ⟨v, hv, hnlt⟩ := hup q m (List.mem_cons_self _ _)
    simp only [indexLoop, hv, if_neg hnlt]
    exact ih acc r fun p m' hm' => hup p m' (List.mem_cons_of_mem _ hm')

/-- Membership in the collected list characterizes re-embedding. -/
theorem indexLoop_mem_iff :
    ∀ (fs : List (String × ℚ)) (acc : List String) (r : Record) (p : String) (m : ℚ),
      (fs.map Prod.fst).Nodup → (p, m) ∈ fs →
      (p ∈ (indexLoop fs acc r).1 ↔
        p ∈ acc ∨ recLookup r p = none ∨ ∃ old, recLookup r p = some old ∧ old < m) := by
  intro fs
  induction fs with
  | nil => intro acc r p m _ hm; simp at hm
  | cons f fs ih =>
    intro acc r p m hnd hm
    obtain ⟨q, mq⟩ := f
    simp only [List.map_cons, List.nodup_cons] at hnd
    obtain ⟨hqnotin, hnd'⟩ := hnd
    rcases List.mem_cons.1 hm with heq | htail
    · injection heq with h1 h2
      subst h1
      subst h2
      cases hl : recLookup r p with
      | none =>
        simp only [indexLoop, hl]
        rw [indexLoop_mem_acc_not_mem _ _ _ _ hqnotin]
        simp
      | some old =>
        by_cases hlt : old < m
        · simp only [indexLoop, hl, if_pos hlt]
          rw [indexLoop_mem_acc_not_mem _ _ _ _ hqnotin]
          simp [hlt]
        · simp only [indexLoop, hl, if_neg hlt]
          rw [indexLoop_mem_acc_not_mem _ _ _ _ hqnotin]
          simp [hlt]
    · have hqp : q ≠ p := by
        intro h
        exact hqnotin (h ▸ List.mem_map_of_mem Prod.fst htail)
      have hpq : p ≠ q := Ne.symm hqp
      cases hl : recLookup r q with
      | none =>
        simp only [indexLoop, hl]
        rw [ih _ _ p m hnd' htail, recLookup_upsert_ne _ _ hqp]
        simp [hpq]
      | some old =>
        by_cases hlt : old < mq
        · simp only [indexLoop, hl, if_pos hlt]
          rw [ih _ _ p m hnd' htail, recLookup_upsert_ne _ _ hqp]
          simp [hpq]
        · simp only [indexLoop, hl, if_neg hlt]
          exact ih _ _ p m hnd' htail

end Rag

namespace Store

theorem sumSq_nonneg (v : List ℝ) : 0 ≤ sumSq v := by
  induction v with
  | nil => simp [sumSq]
  | cons x t ih =>
    have := mul_self_nonneg x
    simp only [sumSq]
    linarith

theorem eq_zero_of_sumSq_eq_zero {v : List ℝ} (h : sumSq v = 0) : ∀ x ∈ v, x = 0 := by
  induction v with
  | nil => simp
  | cons x t ih =>
    simp only [sumSq] at h
    have hx : 0 ≤ x * x := mul_self_nonneg x
    have ht : 0 ≤ sumSq t := sumSq_nonneg t
    have hx0 : x * x = 0 := by linarith
    have ht0 : sumSq t = 0 := by linarith
    intro y hy
    rcases List.mem_cons.1 hy with rfl | hy'
    · exact mul_self_eq_zero.1 hx0
    · exact ih ht0 y hy'

theorem sumSq_map_div (v : List ℝ) (c : ℝ) :
    sumSq (v.map (fun x => x / c)) = sumSq v / (c * c) := by
  induction v with
  | nil => simp [sumSq]
  | cons x t ih =>
    simp only [List.map_cons, sumSq, ih]
    rw [div_mul_div_comm, div_add_div_same]

/-- Normalization produces a unit vector, except that a vector of zero
norm is returned unchanged (and is the all-zero vector). -/
theorem sumSq_normalizeVec (v : List ℝ) :
    sumSq (normalizeVec v) = 1 ∨
      (sumSq v = 0 ∧ normalizeVec v = v ∧ ∀ x ∈ v, x = 0) := by
  by_cases h : sumSq v = 0
  · right
    refine ⟨h, ?_, eq_zero_of_sumSq_eq_zero h⟩
    simp [normalizeVec, h, Real.sqrt_zero]
  · left
    have hpos : 0 < sumSq v := lt_of_le_of_ne (sumSq_nonneg v) (Ne.symm h)
    have hsq : Real.sqrt (sumSq v) ≠ 0 := by
      have := Real.sqrt_pos.2 hpos
      linarith
    simp only [normalizeVec, if_neg hsq]
    rw [sumSq_map_div, Real.mul_self_sqrt (le_of_lt hpos), div_self h]

theorem normalizeVec_length (v : List ℝ) : (normalizeVec v).length = v.length := by
  simp [normalizeVec]

theorem storeInv_empty (α : Type) (dim : Nat) : StoreInv (emptyStore α dim) := by
  intro v hv
  simp [emptyStore] at hv

theorem storeInv_addOk {α : Type} (s : VectorStore α) (docs : List α)
    (embs : List (List ℝ)) (h : StoreInv s) : StoreInv (addOk s docs embs) := by
  intro v hv
  simp only [addOk, List.mem_append] at hv
  rcases hv with hv | hv
  · exact h v hv
  · rcases List.mem_map.1 hv with ⟨e, _, rfl⟩
    rcases sumSq_normalizeVec e with h1 | ⟨_, heq, hz⟩
    · exact Or.inl h1
    · exact Or.inr (by rw [heq]; exact hz)

theorem storeInv_applyAdd {α : Type} (s : VectorStore α) (docs : List α)
    (embs : List (List ℝ)) (h : StoreInv s) : StoreInv (applyAdd s docs embs) := by
  unfold applyAdd add_documents
  cases embs with
  | nil => exact storeInv_addOk s docs [] h
  | cons e rest =>
    by_cases hdim : e.length ≠ s.dimension
    · simp only [if_pos hdim]
      exact h
    · simp only [if_neg hdim]
      exact storeInv_addOk s docs (e :: rest) h

theorem storeInv_runAdds {α : Type} :
    ∀ (ops : List (List α × List (List ℝ))) (s : VectorStore α),
      StoreInv s → StoreInv (runAdds s ops) := by
  intro ops
  induction ops with
  | nil => intro s h; exact h
  | cons op ops ih =>
    intro s h
    exact ih _ (storeInv_applyAdd s op.1 op.2 h)

theorem docUpsert_append {α : Type} :
    ∀ (dd : List (Nat × α)) (i : Nat) (d : α), i ∉ dd.map Prod.fst →
      docUpsert dd i d = dd ++ [(i, d)] := by
  intro dd
  induction dd with
  | nil => intro i d _; rfl
  | cons e t ih =>
    intro i d hi
    simp only [List.map_cons, List.mem_cons, not_or] at hi
    obtain ⟨hei, hi'⟩ := hi
    have : e.1 ≠ i := fun h => hei h.symm
    simp [docUpsert, this, ih i d hi']

theorem addMeta_append {α : Type} :
    ∀ (ds : List α) (dd : List (Nat × α)) (b : Nat),
      (∀ j, b ≤ j → j ∉ dd.map Prod.fst) →
      addMeta dd b ds = dd ++ (List.range' b ds.length).zip ds := by
  intro ds
  induction ds with
  | nil => intro dd b _; simp [addMeta]
  | cons d dt ih =>
    intro dd b hb
    have hfresh : b ∉ dd.map Prod.fst := hb b le_rfl
    have hstep :
        ∀ j, b + 1 ≤ j → j ∉ (dd ++ [(b, d)]).map Prod.fst := by
      intro j hj
      simp only [List.map_append, List.mem_append, List.map_cons, List.map_nil,
        List.mem_singleton, not_or]
      exact ⟨hb j (by omega), by omega⟩
    simp only [addMeta, docUpsert_append dd b d hfresh, ih (dd ++ [(b, d)]) (b + 1) hstep,
      List.length_cons, List.range'_succ, List.zip_cons_cons, List.append_assoc,
      List.singleton_append]

theorem Wf_empty (α : Type) (dim : Nat) : Wf (emptyStore α dim) := by
  constructor <;> simp [emptyStore]

theorem search_length_le {α : Type} (s : VectorStore α) (q : List ℝ) (k : Nat) :
    (search s q k).length ≤ k := by
  unfold search
  split
  · simp
  · refine le_trans (List.length_filterMap_le _ _) ?_
    simp only [List.length_take]
    exact min_le_left _ _

theorem search_sorted {α : Type} (s : VectorStore α) (q : List ℝ) (k : Nat) :
    (search s q k).Pairwise (fun a b => b.2 ≤ a.2) := by
  unfold search
  split
  · simp
  · haveI htot : IsTotal (Nat × ℝ) (fun a b => b.2 ≤ a.2) := ⟨fun a b => le_total b.2 a.2⟩
    haveI htrans : IsTrans (Nat × ℝ) (fun a b => b.2 ≤ a.2) :=
      ⟨fun _ _ _ hab hbc => le_trans hbc hab⟩
    have hsorted := List.sorted_insertionSort (fun a b : Nat × ℝ => b.2 ≤ a.2)
      (s.vectors.enum.map (fun p => (p.1, dot p.2 (normalizeVectors [q]).headI)))
    have htake := List.Pairwise.sublist (List.take_sublist k _) hsorted
    refine List.pairwise_filterMap.2 (htake.imp ?_)
    intro a a' hle b hb b' hb'
    simp only [Option.mem_def, Option.map_eq_some'] at hb hb'
    obtain ⟨d, _, rfl⟩ := hb
    obtain ⟨d', _, rfl⟩ := hb'
    exact hle

theorem sortDesc_perm (l : List (Nat × ℝ)) : (sortDesc l).Perm l :=
  List.perm_insertionSort _ l

theorem search_nil_of_documents_nil {α : Type} (s : VectorStore α) (q : List ℝ)
    (k : Nat) (h : s.documents = []) : search s q k = [] := by
  unfold search
  rw [if_pos (by simp [h])]

theorem docLookup_range' {α : Type} :
    ∀ (dd : List (Nat × α)) (b i : Nat),
      dd.map Prod.fst = List.range' b dd.length →
      docLookup dd (b + i) = (dd.map Prod.snd)[i]? := by
  intro dd
  induction dd with
  | nil => intro b i _; simp [docLookup]
  | cons e t ih =>
    intro b i hkeys
    simp only [List.map_cons, List.length_cons, List.range'_succ, List.cons.injEq] at hkeys
    obtain ⟨he, ht⟩ := hkeys
    cases i with
    | zero => simp [docLookup, he]
    | succ j =>
      have hne : e.1 ≠ b + (j + 1) := by omega
      simp only [docLookup, if_neg hne, List.map_cons, List.getElem?_cons_succ]
      have := ih (b + 1) j ht
      rwa [show b + 1 + j = b + (j + 1) by omega] at this

theorem filterMap_enumFrom {α : Type} (dd : List (Nat × α)) (nq : List ℝ) :
    ∀ (vecs : List (List ℝ)) (ds : List α) (b : Nat),
      ds.length = vecs.length →
      (∀ i, docLookup dd (b + i) = ds[i]?) →
      (((vecs.enumFrom b).map (fun p => (p.1, dot p.2 nq))).filterMap
        (fun p => (docLookup dd p.1).map (fun d => (d, p.2)))).map Prod.fst = ds := by
  intro vecs
  induction vecs with
  | nil =>
    intro ds b hlen _
    cases ds with
    | nil => rfl
    | cons d dt => simp at hlen
  | cons v vt ih =>
    intro ds b hlen hlook
    cases ds with
    | nil => simp at hlen
    | cons d dt =>
      have h0 : docLookup dd b = some d := by simpa using hlook 0
      have hlook' : ∀ i, docLookup dd (b + 1 + i) = dt[i]? := by
        intro i
        have h := hlook (i + 1)
        rw [List.getElem?_cons_succ] at h
        rwa [show b + (i + 1) = b + 1 + i by omega] at h
      simp only [List.enumFrom_cons, List.map_cons, List.filterMap_cons, h0,
        Option.map_some', List.map_cons]
      rw [ih dt (b + 1) (by simpa using hlen) hlook']

theorem search_all_of_lt {α : Type} (s : VectorStore α) (q : List ℝ) (k : Nat)
    (hwf : Wf s) (hk : s.documents.length < k) :
    ((search s q k).map Prod.fst).Perm (s.documents.map Prod.snd) := by
  obtain ⟨hkeys, _⟩ := hwf
  by_cases hd : s.documents.length = 0
  · have hnil : s.documents = [] := List.length_eq_zero.1 hd
    rw [search, if_pos hd, hnil]
    simp
  · rw [search, if_neg hd]
    dsimp only
    have hlen_docs : s.documents.length = s.vectors.length := by
      have := congrArg List.length hkeys
      simpa using this
    have hsortlen :
        (sortDesc (s.vectors.enum.map
          (fun p => (p.1, dot p.2 (normalizeVectors [q]).headI)))).length =
          s.vectors.length := by
      rw [(sortDesc_perm _).length_eq]
      simp
    rw [List.take_of_length_le (by rw [hsortlen]; omega)]
    have hperm :=
      ((sortDesc_perm
        (s.vectors.enum.map
          (fun p => (p.1, dot p.2 (normalizeVectors [q]).headI)))).filterMap
        (fun p => (docLookup s.documents p.1).map (fun d => (d, p.2)))).map Prod.fst
    refine hperm.trans ?_
    have hkeys' : s.documents.map Prod.fst = List.range' 0 s.documents.length := by
      rw [hkeys, List.range_eq_range', hlen_docs]
    have hlook : ∀ i, docLookup s.documents (0 + i) = (s.documents.map Prod.snd)[i]? :=
      fun i => docLookup_range' s.documents 0 i hkeys'
    have heq := filterMap_enumFrom s.documents ((normalizeVectors [q]).headI)
      s.vectors (s.documents.map Prod.snd) 0 (by simpa using hlen_docs) hlook
    rw [show s.vectors.enum = s.vectors.enumFrom 0 from rfl, heq]

/-- Calls of `add_documents` with matching document/embedding counts keep
the store well-formed, so `Wf` captures exactly the states arising from
proper use of the append-only interface. -/
theorem Wf_addOk {α : Type} (s : VectorStore α) (docs : List α) (embs : List (List ℝ))
    (hwf : Wf s) (hlen : docs.length = embs.length) : Wf (addOk s docs embs) := by
  obtain ⟨hkeys, hnid⟩ := hwf
  have hfresh : ∀ j, s.next_id ≤ j → j ∉ s.documents.map Prod.fst := by
    intro j hj hmem
    rw [hkeys, List.mem_range] at hmem
    omega
  constructor
  · rw [addOk]
    simp only [addMeta_append docs s.documents s.next_id hfresh, List.map_append]
    rw [List.map_fst_zip _ _ (by simp), hkeys, hnid]
    simp only [List.length_append, normalizeVectors, List.length_map,
      List.range_eq_range']
    rw [← hlen]
    simpa [Nat.add_comm] using List.range'_append_1 0 s.vectors.length docs.length
  · simp only [addOk, List.length_append, normalizeVectors, List.length_map, hnid, hlen]

end Store

namespace Engine

open Embeddings

theorem ollamaLoop_ok_length (md5hex : String → String)
    (world : String → OllamaOutcome) :
    ∀ (ts : List String) (l : List (List ℚ)),
      ollamaLoop md5hex world ts = Except.ok l → l.length = ts.length := by
  intro ts
  induction ts with
  | nil =>
    intro l h
    simp only [ollamaLoop] at h
    cases h
    rfl
  | cons t ts ih =>
    intro l h
    simp only [ollamaLoop] at h
    cases hw : world t with
    | exn => rw [hw] at h; cases h
    | badStatus =>
      rw [hw] at h
      cases hl : ollamaLoop md5hex world ts with
      | error e => rw [hl] at h; cases h
      | ok l' =>
        rw [hl] at h
        cases h
        simpa using ih l' hl
    | ok e =>
      rw [hw] at h
      cases hl : ollamaLoop md5hex world ts with
      | error er => rw [hl] at h; cases h
      | ok l' =>
        rw [hl] at h
        cases h
        simpa using ih l' hl

theorem fallback_embed_length (md5hex : String → String) (texts : List String) :
    (fallback_embed md5hex texts).length = texts.length := by
  simp [fallback_embed]

theorem embed_length (md5hex : String → String) (world : String → OllamaOutcome)
    (st : EngineState) (texts : List String) :
    (embed md5hex world st texts).length = texts.length := by
  unfold embed
  cases st.model with
  | fallbackModel => exact fallback_embed_length md5hex texts
  | ollamaModel => exact fallback_embed_length md5hex texts

/-- Had `_ollama_embed` been reachable, it would also return one vector
per text (successful loops one-to-one, exceptions falling back to the
hash embedding). -/
theorem ollama_embed_length (md5hex : String → String)
    (world : String → OllamaOutcome) (texts : List String) :
    (ollama_embed md5hex world texts).length = texts.length := by
  unfold ollama_embed
  cases hl : ollamaLoop md5hex world texts with
  | ok l => exact ollamaLoop_ok_length md5hex world texts l hl
  | error e => exact fallback_embed_length md5hex texts


theorem fallback_embed_dims (md5hex : String → String) (texts : List String) :
    ∀ v ∈ fallback_embed md5hex texts, v.length = 384 := by
  intro v hv
  rcases List.mem_map.1 hv with ⟨t, _, rfl⟩
  exact simple_hash_embed_length md5hex t 384

theorem embed_dims (md5hex : String → String) (world : String → OllamaOutcome)
    (st : EngineState) (texts : List String) :
    ∀ v ∈ embed md5hex world st texts, v.length = 384 := by
  unfold embed
  cases st.model with
  | fallbackModel => exact fallback_embed_dims md5hex texts
  | ollamaModel => exact fallback_embed_dims md5hex texts

end Engine

namespace Markdown

theorem splitLines_ne_nil : ∀ l : List Char, splitLines l ≠ [] := by
  intro l
  induction l with
  | nil => simp [splitLines]
  | cons c rest ih =>
    by_cases hc : c = '\n'
    · simp [splitLines, hc]
    · simp only [splitLines, if_neg hc]
      cases hsp : splitLines rest with
      | nil => simp
      | cons line out => simp

/-- Skipping to the next `^` anchor position drops exactly the first
line. -/
theorem afterNextNl_splitLines :
    ∀ (l l2 : List Char), afterNextNl l = some l2 →
      ∃ line, splitLines l = line :: splitLines l2 := by
  intro l
  induction l with
  | nil => intro l2 h; simp [afterNextNl] at h
  | cons c rest ih =>
    intro l2 h
    by_cases hc : c = '\n'
    · subst hc
      simp only [afterNextNl, if_true, reduceIte, Option.some.injEq] at h
      subst h
      exact ⟨[], by simp [splitLines]⟩
    · simp only [afterNextNl, if_neg hc] at h
      obtain ⟨line, hline⟩ := ih l2 h
      cases hsp : splitLines rest with
      | nil => exact absurd hsp (splitLines_ne_nil rest)
      | cons line0 out =>
        rw [hsp] at hline
        injection hline with h1 h2
        refine ⟨c :: line0, ?_⟩
        simp [splitLines, hc, hsp, h2]

/-- If no line of the document starts with `#`, the title scan finds no
match. -/
theorem titleScanF_none :
    ∀ (fuel : Nat) (l : List Char),
      (splitLines l).all (fun line => line.head? != some '#') →
      titleScanF fuel l = none := by
  intro fuel
  induction fuel with
  | zero => intro l _; cases l <;> rfl
  | succ fuel ih =>
    intro l hall
    cases l with
    | nil => rfl
    | cons c rest =>
      by_cases hc : c = '#'
      · subst hc
        exfalso
        cases hsp : splitLines rest with
        | nil => exact splitLines_ne_nil rest hsp
        | cons line0 out =>
          have hsl : splitLines ('#' :: rest) = ('#' :: line0) :: out := by
            simp [splitLines, hsp]
          rw [hsl] at hall
          simp at hall
      · simp only [titleScanF, if_neg hc]
        cases han : afterNextNl (c :: rest) with
        | none => rfl
        | some l2 =>
          obtain ⟨line, hline⟩ := afterNextNl_splitLines _ _ han
          rw [hline] at hall
          simp only [List.all_cons, Bool.and_eq_true] at hall
          exact ih l2 hall.2

end Markdown

/-- C1: for every well-formed vector store state and every query vector,
`VectorStore.search(q, k)` returns at most `k` results, sorted by
non-increasing score; a store holding fewer than `k` documents returns
all of them; an empty store returns an empty result (the total result
type records that no error is raised). -/
theorem mald_search_topk_spec {α : Type} (s : Store.VectorStore α) (q : List ℝ)
    (k : Nat) (hwf : Store.Wf s) :
    (Store.search s q k).length ≤ k ∧
    (Store.search s q k).Pairwise (fun a b => b.2 ≤ a.2) ∧
    (s.documents.length < k →
      ((Store.search s q k).map Prod.fst).Perm (s.documents.map Prod.snd)) ∧
    (s.documents = [] → Store.search s q k = []) :=
  ⟨Store.search_length_le s q k, Store.search_sorted s q k,
    fun hk => Store.search_all_of_lt s q k hwf hk,
    fun h => Store.search_nil_of_documents_nil s q k h⟩

/-- Witness for C1 at a concrete one-document store and query. -/
theorem mald_search_topk_spec_witness :
    Store.Wf store1 ∧
      ((Store.search store1 [1, 0] 5).length ≤ 5 ∧
        (Store.search store1 [1, 0] 5).Pairwise (fun a b => b.2 ≤ a.2) ∧
        (store1.documents.length < 5 →
          ((Store.search store1 [1, 0] 5).map Prod.fst).Perm
            (store1.documents.map Prod.snd)) ∧
        (store1.documents = [] → Store.search store1 [1, 0] 5 = [])) :=
  ⟨⟨rfl, rfl⟩, mald_search_topk_spec store1 [1, 0] 5 ⟨rfl, rfl⟩⟩

/-- C2: normalization yields a unit vector in the exact-real model unless
the original vector had zero norm, in which case it is stored unchanged
as the zero vector (no division by zero); consequently every store state
reachable from empty by `add_documents` calls satisfies the unit-norm
invariant for all its stored vectors. -/
theorem mald_store_unit_norm_invariant :
    (∀ v : List ℝ, Store.sumSq (Store.normalizeVec v) = 1 ∨
      (Store.sumSq v = 0 ∧ Store.normalizeVec v = v ∧ ∀ x ∈ v, x = 0)) ∧
    ∀ (α : Type) (dim : Nat) (ops : List (List α × List (List ℝ))),
      Store.StoreInv (Store.runAdds (Store.emptyStore α dim) ops) :=
  ⟨Store.sumSq_normalizeVec,
    fun α dim ops => Store.storeInv_runAdds ops _ (Store.storeInv_empty α dim)⟩

/-- Witness for C2 after one concrete `add_documents` call. -/
theorem mald_store_unit_norm_invariant_witness :
    Store.StoreInv (Store.runAdds (Store.emptyStore String 2) [(["doc"], [[3, 4]])]) :=
  mald_store_unit_norm_invariant.2 String 2 [(["doc"], [[3, 4]])]

/-- C3 counterexample: `add_documents` validates only the first
embedding of a non-empty batch, so a batch whose second embedding has
the wrong dimension is accepted without error, and the store ends up
holding a 3-dimensional vector in a dimension-2 store. -/
theorem mald_add_documents_first_only_counterexample :
    Store.add_documents (Store.emptyStore String 2) ["d1", "d2"] [[3, 4], [1, 2, 3]] =
      Except.ok (Store.addOk (Store.emptyStore String 2) ["d1", "d2"]
        [[3, 4], [1, 2, 3]]) ∧
    (Store.applyAdd (Store.emptyStore String 2) ["d1", "d2"]
        [[3, 4], [1, 2, 3]]).vectors.map List.length = [2, 3] := by
  constructor
  · simp [Store.add_documents, Store.emptyStore]
  · simp [Store.applyAdd, Store.add_documents, Store.addOk, Store.normalizeVectors,
      Store.normalizeVec_length, Store.emptyStore]

/-- C3 amended: when the first embedding's dimension mismatches the
store's configured dimension, `add_documents` raises the explicit
`ValueError` before any state change, leaving the store unchanged. -/
theorem mald_add_documents_dim_error_spec {α : Type} (s : Store.VectorStore α)
    (docs : List α) (e : List ℝ) (rest : List (List ℝ))
    (h : e.length ≠ s.dimension) :
    Store.add_documents s docs (e :: rest) =
      Except.error (Store.errMsg e.length s.dimension) ∧
    Store.applyAdd s docs (e :: rest) = s := by
  constructor
  · simp [Store.add_documents, h]
  · simp [Store.applyAdd, Store.add_documents, h]

/-- Witness for the amended C3 at a concrete mismatched first embedding. -/
theorem mald_add_documents_dim_error_spec_witness :
    ([(1 : ℝ), 2, 3] : List ℝ).length ≠ (Store.emptyStore String 2).dimension ∧
      (Store.add_documents (Store.emptyStore String 2) ["d"] [[1, 2, 3]] =
        Except.error (Store.errMsg ([(1 : ℝ), 2, 3] : List ℝ).length
          (Store.emptyStore String 2).dimension) ∧
      Store.applyAdd (Store.emptyStore String 2) ["d"] [[1, 2, 3]] =
        Store.emptyStore String 2) :=
  ⟨by decide,
    mald_add_documents_dim_error_spec (Store.emptyStore String 2) ["d"]
      [1, 2, 3] [] (by decide)⟩

/-- C4: the fallback hash embedding is a pure function of the text (two
runs agree definitionally in the pure model), always produces exactly
`dim` values (384 by default), and every component lies in
`[-0.5, 0.5]` by the `byte/255 - 0.5` conversion.  The md5 digest is
abstracted as `md5hex`; no property of it is needed here. -/
theorem mald_hash_embed_deterministic_bounded (md5hex : String → String)
    (text : String) :
    Embeddings.simple_hash_embed md5hex text 384 =
      Embeddings.simple_hash_embed md5hex text 384 ∧
    (Embeddings.simple_hash_embed md5hex text 384).length = 384 ∧
    ∀ x ∈ Embeddings.simple_hash_embed md5hex text 384,
      -(1 / 2 : ℚ) ≤ x ∧ x ≤ 1 / 2 :=
  ⟨rfl, Embeddings.simple_hash_embed_length md5hex text 384,
    Embeddings.simple_hash_embed_bounds md5hex text 384⟩

/-- Witness for C4 at a concrete digest function and text. -/
theorem mald_hash_embed_deterministic_bounded_witness :
    (Embeddings.simple_hash_embed constDigest "hello" 384).length = 384 :=
  (mald_hash_embed_deterministic_bounded constDigest "hello").2.1

/-- C5: indexing is idempotent over an unchanged corpus — the second
`index_knowledge_base(force_reindex=False)` run returns 0 — and a path
is re-embedded exactly when it is absent from the Indexed-File Record or
its current modification time exceeds the recorded one. -/
theorem mald_index_idempotent (files : List (String × ℚ)) (r : Rag.Record)
    (hnd : (files.map Prod.fst).Nodup) :
    (Rag.index_knowledge_base files
      (Rag.index_knowledge_base files r false).2 false).1 = 0 ∧
    ∀ (p : String) (m : ℚ), (p, m) ∈ files →
      (p ∈ (Rag.indexLoop files [] r).1 ↔
        Rag.recLookup r p = none ∨
          ∃ old, Rag.recLookup r p = some old ∧ old < m) := by
  constructor
  · show ((Rag.indexLoop files []
      (Rag.indexLoop files [] r).2).1).length = 0
    rw [Rag.indexLoop_no_new files [] _
      (fun p m hm => Rag.indexLoop_post files [] r hnd p m hm)]
    rfl
  · intro p m hm
    have := Rag.indexLoop_mem_iff files [] r p m hnd hm
    simpa using this

/-- Witness for C5 at a concrete two-file corpus and empty record. -/
theorem mald_index_idempotent_witness :
    (Rag.index_knowledge_base filesW
      (Rag.index_knowledge_base filesW [] false).2 false).1 = 0 :=
  (mald_index_idempotent filesW [] (by decide)).1

/-- C6: `save_index` followed by constructing a fresh `VectorStore` over
the same index directory reconstructs an equivalent state: same document
count, same dimension, and identical search results (hence ranking and
scores) for every query. -/
theorem mald_save_load_roundtrip {α : Type} (s : Store.VectorStore α) (d0 : Nat) :
    (Store.loadStore (some (Store.save_index s)) d0).documents.length =
      s.documents.length ∧
    (Store.loadStore (some (Store.save_index s)) d0).dimension = s.dimension ∧
    ∀ (q : List ℝ) (k : Nat),
      Store.search (Store.loadStore (some (Store.save_index s)) d0) q k =
        Store.search s q k := by
  have h : Store.loadStore (some (Store.save_index s)) d0 = s := by
    cases s
    rfl
  rw [h]
  exact ⟨rfl, rfl, fun _ _ => rfl⟩

/-- Witness for C6 at a concrete store. -/
theorem mald_save_load_roundtrip_witness :
    (Store.loadStore (some (Store.save_index store1)) 384).documents.length =
      store1.documents.length :=
  (mald_save_load_roundtrip store1 384).1

/-- C7 amended: `embed` is total (never raises, the `Except`-free
result type) and returns exactly one vector per input text in every
modelled state; every returned vector has the fallback dimension 384
(for the string model `"ollama"`, the `hasattr(_, 'encode')` branch
raises `TypeError` on `str.encode` and the catch-all degrades to the
hash fallback, so `_ollama_embed` is never reached), and 384 equals
`get_dimension()` exactly when the configured backend string is not
`"ollama"`. -/
theorem mald_embed_total_spec (md5hex : String → String)
    (world : String → Engine.OllamaOutcome) (st : Engine.EngineState)
    (texts : List String) :
    (Engine.embed md5hex world st texts).length = texts.length ∧
    (∀ v ∈ Engine.embed md5hex world st texts, v.length = 384) ∧
    (st.backend ≠ "ollama" →
      ∀ v ∈ Engine.embed md5hex world st texts,
        v.length = Engine.get_dimension st) := by
  refine ⟨Engine.embed_length md5hex world st texts,
    Engine.embed_dims md5hex world st texts, ?_⟩
  intro hb v hv
  have := Engine.embed_dims md5hex world st texts v hv
  rwa [Engine.get_dimension, if_neg hb]

/-- Witness for the amended C7 at a concrete fallback engine. -/
theorem mald_embed_total_spec_witness :
    (Engine.embed constDigest worldExn (Engine.mkEngine "fallback" true)
      ["x"]).length = 1 :=
  (mald_embed_total_spec constDigest worldExn (Engine.mkEngine "fallback" true)
    ["x"]).1

/-- C7 counterexample: an engine constructed with `backend="ollama"`
whose connectivity probe failed keeps `backend = "ollama"`, so
`get_dimension()` reports 768 while `embed` produces 384-dimensional
fallback vectors — the claimed dimension contract fails in this state. -/
theorem mald_embed_dimension_counterexample :
    (Engine.embed constDigest worldExn (Engine.mkEngine "ollama" false)
      ["x"]).map List.length = [384] ∧
    Engine.get_dimension (Engine.mkEngine "ollama" false) = 768 ∧
    (384 : Nat) ≠ 768 := by
  refine ⟨?_, by decide, by decide⟩
  have h1 : Engine.mkEngine "ollama" false =
      ⟨Engine.ModelKind.fallbackModel, "ollama"⟩ := by decide
  rw [h1]
  simp [Engine.embed, Engine.fallback_embed, Embeddings.simple_hash_embed_length]

/-- C8 counterexample: on the content `"#\nabc"` no single line matches
the level-1 heading pattern `^#\s+(.+)$`, yet the title is `"abc"`, not
the filename stem — the multiline `\s+` of the code's pattern matches
the newline, so the claimed first-matching-line/stem-fallback rule fails
on the code. -/
theorem mald_markdown_title_counterexample :
    (Markdown.splitLines "#\nabc".data).all
      (fun l => !Markdown.isH1Line l) = true ∧
    Markdown.extract_title "#\nabc".data "stem" = "abc" ∧
    ("abc" : String) ≠ "stem" := by
  refine ⟨by decide, by decide, by decide⟩

/-- C8 amended: parsing the sample document yields title `"Hello"`, link
set `{"World"}`, tag set `{"tag1", "tag2"}` and exactly one code block
of language `"python"`.  The title comes from the first match of the
multiline pattern `^#\s+(.+)$`; in particular, when no line of the
document begins with `#`, the title falls back to the filename stem.
Because `\s+` matches newlines, a line consisting of `#` and trailing
whitespace can capture a following line's text instead, so the title is
not always determined by a single matching line. -/
theorem mald_markdown_parse_spec :
    (Markdown.parseMarkdown sampleDoc "sample").title = "Hello" ∧
    (Markdown.parseMarkdown sampleDoc "sample").links = ["World"] ∧
    (Markdown.parseMarkdown sampleDoc "sample").tags = ["tag1", "tag2"] ∧
    (Markdown.parseMarkdown sampleDoc "sample").code_blocks.map
      Markdown.CodeBlock.language = ["python"] ∧
    (∀ (content : List Char) (stem : String),
      (Markdown.splitLines content).all (fun line => line.head? != some '#') →
      Markdown.extract_title content stem = stem) := by
  refine ⟨by decide, by decide, by decide, by decide, ?_⟩
  intro content stem hall
  unfold Markdown.extract_title
  rw [Markdown.titleScanF_none content.length content hall]

/-- Witness for C8 at the sample document. -/
theorem mald_markdown_parse_spec_witness :
    (Markdown.parseMarkdown sampleDoc "sample").title = "Hello" :=
  mald_markdown_parse_spec.1

/-- C9: `find_orphaned_files` returns exactly the documents whose
relative path is not among the normalized link targets of any document,
excluding the root `index.md`; on the concrete three-document corpus
where the root index links to B and nothing links to C, exactly C is
orphaned. -/
theorem mald_orphan_detection_spec :
    Markdown.find_orphaned_files orphanDocs = ["C.md"] ∧
    ∀ (docs : List (String × List String)) (p : String),
      p ∈ Markdown.find_orphaned_files docs ↔
        p ∈ docs.map Prod.fst ∧ p ∉ Markdown.linkedFiles docs ∧ p ≠ "index.md" := by
  refine ⟨by decide, ?_⟩
  intro docs p
  unfold Markdown.find_orphaned_files
  rw [List.mem_filterMap]
  constructor
  · rintro ⟨d, hd, hfd⟩
    by_cases hc : d.1 ∉ Markdown.linkedFiles docs ∧ d.1 ≠ "index.md"
    · rw [if_pos hc] at hfd
      injection hfd with hfd'
      subst hfd'
      exact ⟨List.mem_map_of_mem Prod.fst hd, hc.1, hc.2⟩
    · rw [if_neg hc] at hfd
      cases hfd
  · rintro ⟨hp, hnl, hni⟩
    rcases List.mem_map.1 hp with ⟨d, hd, rfl⟩
    exact ⟨d, hd, by rw [if_pos ⟨hnl, hni⟩]⟩

/-- Witness for C9 at the concrete corpus. -/
theorem mald_orphan_detection_spec_witness :
    Markdown.find_orphaned_files orphanDocs = ["C.md"] :=
  mald_orphan_detection_spec.1

/-- C10: with the default dimension 384, the fallback hash embedding
generates only `16 * (384 // 32) = 192` hash-derived values, so the
components at indices 192 through 383 are exactly `0.0`. -/
theorem mald_hash_embed_zero_tail (md5hex : String → String) (text : String)
    (h : ∀ s, (md5hex s).length = 32) :
    (Embeddings.simple_hash_embed md5hex text 384).length = 384 ∧
    (Embeddings.simple_hash_embed md5hex text 384).drop 192 =
      List.replicate 192 (0 : ℚ) :=
  ⟨Embeddings.simple_hash_embed_length md5hex text 384,
    Embeddings.simple_hash_embed_drop md5hex text h⟩

/-- Witness for C10 at a concrete 32-character digest function. -/
theorem mald_hash_embed_zero_tail_witness :
    (Embeddings.simple_hash_embed constDigest "x" 384).drop 192 =
      List.replicate 192 (0 : ℚ) :=
  (mald_hash_embed_zero_tail constDigest "x" (fun _ => rfl)).2

